import Mathlib

/-!
Verification of the markdown editor's text-transformation logic
(`src/components/TextEditor.tsx`).

Strings are modelled as `List Char` and positions as `Nat`.  The JavaScript
string primitives used by the source (`substring` with its swap/clamp
behaviour, `lastIndexOf(c, pos)` with its clamp of negative positions to 0,
`indexOf(c, from)`, `startsWith`) are modelled explicitly below.  The inline
regexes of the source all have the shape `m(.*?)m` for a literal marker `m`
(with `.` not matching a newline), so pattern testing and global
replace-with-`'$1'` are modelled for that shape.
-/

namespace MdEditor

/-- `leadsWith m s` is `true` iff `m` is a (char-by-char) prefix of `s`;
models JavaScript `s.startsWith(m)` and a regex engine matching the literal
`m` at the current position. -/
def leadsWith : List Char → List Char → Bool
  | [], _ => true
  | _ :: _, [] => false
  | c :: m, d :: s => c == d && leadsWith m s

/-- `occursIn m s` is `true` iff `m` occurs as a contiguous substring of `s`. -/
def occursIn (m : List Char) : List Char → Bool
  | [] => leadsWith m []
  | c :: cs => leadsWith m (c :: cs) || occursIn m cs

/-- JavaScript `t.substring(a, b)`: clamps both arguments to `[0, length]`
and swaps them when `a > b`. -/
def substringJS (t : List Char) (a b : Nat) : List Char :=
  let a' := min a t.length
  let b' := min b t.length
  (t.drop (min a' b')).take (max a' b' - min a' b')

/-- Largest index `k ≤ pos` with `t[k] = c`, if any; models JavaScript
`t.lastIndexOf(c, pos)` for a one-character search string (the source only
searches for `'\n'`).  A JS `pos` of `-1` is clamped to `0`, which matches
`Nat` subtraction at the call site `lastIndexOf('\n', start - 1)`. -/
def lastIdxLe (t : List Char) (c : Char) : Nat → Option Nat
  | 0 => if t.get? 0 = some c then some 0 else none
  | k + 1 => if t.get? (k + 1) = some c then some (k + 1) else lastIdxLe t c k

/-- Index of the first occurrence of `c` in `s`, if any. -/
def idxFrom (c : Char) : List Char → Option Nat
  | [] => none
  | d :: s => if d = c then some 0 else (idxFrom c s).map (· + 1)

/-- Smallest index `k ≥ i` with `t[k] = c`, if any; models JavaScript
`t.indexOf(c, i)` for a one-character search string. -/
def idxOfGe (t : List Char) (c : Char) (i : Nat) : Option Nat :=
  (idxFrom c (t.drop i)).map (· + i)

/-- `text.lastIndexOf('\n', start - 1) + 1` from line 101 of the source
(the `-1` result maps to `0`). -/
def lineStartOf (t : List Char) (s : Nat) : Nat :=
  match lastIdxLe t '\n' (s - 1) with
  | some k => k + 1
  | none => 0

/-- Matching of the tail `(.*?)m` of an inline wrap regex against `s`:
find the least split `s = b ++ m ++ r` (with `b` free of newlines unless
`anyc` is `true`, as for the fenced-code pattern `([\s\S]*?)`), returning
`(b, r)`.  This is the lazy-quantifier search a backtracking engine performs. -/
def findClose (anyc : Bool) (m : List Char) : List Char → Option (List Char × List Char)
  | [] => if leadsWith m [] then some ([], []) else none
  | c :: cs =>
    if leadsWith m (c :: cs) then some ([], (c :: cs).drop m.length)
    else if anyc = false ∧ c = '\n' then none
    else
      match findClose anyc m cs with
      | some (b, r) => some (c :: b, r)
      | none => none

/-- JavaScript `pattern.test(s)` for the inline wrap regex with marker
`c0 :: m0` (e.g. `/\*\*(.*?)\*\*/g` for bold): is there a match anywhere? -/
def patTest (c0 : Char) (m0 : List Char) : List Char → Bool
  | [] => false
  | c :: cs =>
    (leadsWith (c0 :: m0) (c :: cs) && (findClose false (c0 :: m0) (cs.drop m0.length)).isSome)
      || patTest c0 m0 cs

/-- Fuel-driven worker for `replaceG`; fuel is the length of the scanned
list, which suffices because every step consumes at least one character. -/
def replaceGF (c0 : Char) (m0 : List Char) : Nat → List Char → List Char
  | 0, s => s
  | _ + 1, [] => []
  | fuel + 1, c :: cs =>
    if leadsWith (c0 :: m0) (c :: cs) then
      match findClose false (c0 :: m0) (cs.drop m0.length) with
      | some (b, r) => b ++ replaceGF c0 m0 fuel r
      | none => c :: replaceGF c0 m0 fuel cs
    else c :: replaceGF c0 m0 fuel cs

/-- JavaScript `s.replace(pattern, '$1')` for the inline wrap regex with
marker `c0 :: m0`: repeatedly replace the leftmost lazy match by its capture
group, scanning left to right without rescanning produced output. -/
def replaceG (c0 : Char) (m0 : List Char) (s : List Char) : List Char :=
  replaceGF c0 m0 s.length s

/-- The four structural kinds of the format registry. -/
inductive FType
  | inline
  | line
  | block
  | special
deriving DecidableEq

/-- A format descriptor (the `Format` interface of the source).  The inline
wrap regexes are represented by their marker, split into first character and
rest so that it is nonempty by construction. -/
structure Format where
  pattern : Option (Char × List Char)
  marker : List Char
  ftype : FType
  endMarker : Option (List Char)
  handler : Option (List Char → List Char)

/-- The keys of the `formats` registry (closed enumeration). -/
inductive FormatKey
  | bold
  | italic
  | code
  | strikethrough
  | h1
  | h2
  | h3
  | bulletList
  | numberList
  | blockquote
  | horizontalRule
  | codeBlock
  | link
  | image
deriving DecidableEq

/-- The backquote character (U+0060), written by code point. -/
def backquoteC : Char := Char.ofNat 96

/-- The format registry (lines 35–72 of the source). -/
def formats : FormatKey → Format
  | .bold => ⟨some ('*', ['*']), ['*', '*'], .inline, none, none⟩
  | .italic => ⟨some ('*', []), ['*'], .inline, none, none⟩
  | .code => ⟨some (backquoteC, []), [backquoteC], .inline, none, none⟩
  | .strikethrough => ⟨some ('~', ['~']), ['~', '~'], .inline, none, none⟩
  | .h1 => ⟨none, String.toList "# ", .line, none, none⟩
  | .h2 => ⟨none, String.toList "## ", .line, none, none⟩
  | .h3 => ⟨none, String.toList "### ", .line, none, none⟩
  | .bulletList => ⟨none, String.toList "- ", .line, none, none⟩
  | .numberList => ⟨none, String.toList "1. ", .line, none, none⟩
  | .blockquote => ⟨none, String.toList "> ", .line, none, none⟩
  | .horizontalRule => ⟨none, String.toList "\n---\n", .special, none, none⟩
  | .codeBlock => ⟨none, String.toList "\n```\n", .block, some (String.toList "\n```"), none⟩
  | .link =>
      ⟨none, [], .special, none,
        some fun sel => String.toList "[" ++ sel ++ String.toList "](url)"⟩
  | .image =>
      ⟨none, [], .special, none,
        some fun sel => String.toList "![" ++ sel ++ String.toList "](image-url)"⟩

/-- Result of a formatting action: the new document text and the cursor
position restored afterwards. -/
structure ApplyResult where
  newText : List Char
  newCursor : Nat
deriving DecidableEq

/-- `s.replace(pattern, '$1')` guarded by the presence of a pattern, as the
source only calls it when `format.pattern` exists. -/
def stripAll (pat : Option (Char × List Char)) (s : List Char) : List Char :=
  match pat with
  | some (c0, m0) => replaceG c0 m0 s
  | none => s

/-- The `'inline'` branch of `formatText` (lines 87–97). -/
def inlineApply (pat : Option (Char × List Char)) (mk t : List Char) (s e : Nat) : ApplyResult :=
  let selectedText := substringJS t s e
  let hasFormat :=
    match pat with
    | some (c0, m0) => patTest c0 m0 selectedText
    | none => false
  let newContent :=
    if hasFormat then stripAll pat selectedText else mk ++ selectedText ++ mk
  ⟨substringJS t 0 s ++ newContent ++ substringJS t e t.length, s + newContent.length⟩

/-- The `'line'` branch of `formatText` (lines 99–117). -/
def lineApply (mk t : List Char) (s e : Nat) : ApplyResult :=
  let lineStart := lineStartOf t s
  let lineEndV := (idxOfGe t '\n' e).getD t.length
  let currentLine := substringJS t lineStart lineEndV
  let hasFormat := leadsWith mk currentLine
  if hasFormat then
    ⟨substringJS t 0 lineStart ++ currentLine.drop mk.length
      ++ substringJS t lineEndV t.length, s⟩
  else
    ⟨substringJS t 0 lineStart ++ mk ++ currentLine
      ++ substringJS t lineEndV t.length, s⟩

/-- The `'block'` branch of `formatText` (lines 119–127). -/
def blockApply (mk endMk t : List Char) (s e : Nat) : ApplyResult :=
  ⟨substringJS t 0 s ++ mk ++ substringJS t s e ++ endMk
    ++ substringJS t e t.length, s⟩

/-- The `'special'` branch of `formatText` (lines 129–140). -/
def specialApply (mk : List Char) (handler : Option (List Char → List Char))
    (t : List Char) (s e : Nat) : ApplyResult :=
  match handler with
  | some h =>
    let newContent := h (substringJS t s e)
    ⟨substringJS t 0 s ++ newContent ++ substringJS t e t.length, s + newContent.length⟩
  | none =>
    ⟨substringJS t 0 s ++ mk ++ substringJS t e t.length, s + mk.length⟩

/-- The Selection Transformer `formatText` (lines 74–150 of the source):
given the document text, the selection offsets and a format key, produce the
new text and the new cursor position. -/
def formatText (t : List Char) (s e : Nat) (k : FormatKey) : ApplyResult :=
  let fmt := formats k
  match fmt.ftype with
  | .inline => inlineApply fmt.pattern fmt.marker t s e
  | .line => lineApply fmt.marker t s e
  | .block => blockApply fmt.marker (fmt.endMarker.getD []) t s e
  | .special => specialApply fmt.marker fmt.handler t s e

/-! ### The markdown-to-HTML converter (`convertToHTML`, lines 152–187)

Each conversion rule is a JavaScript global `String.replace`: scan the
current string left to right; at each position try the pattern (with `^`
anchors evaluated against the *source* string in multiline mode); on a match
emit the replacement and resume after the match, never rescanning emitted
output.  `runRule` is that driver; a rule is a `step` function returning the
number of source characters consumed and the replacement.  Every pattern of
the source matches at least one character, so a fuel of the string length
suffices. -/

/-- A character matched by the regex class `\s` (ASCII range; the inputs of
interest only use `'\n'`). -/
def wsChar (c : Char) : Bool :=
  c = ' ' || c = '\t' || c = '\n' || c = '\r' || c = Char.ofNat 11 || c = Char.ofNat 12

/-- Driver for one global-replace pass; the `Bool` argument tracks whether
the current position is at a line start of the source (for `^` in `m` mode). -/
def runRule (step : Bool → List Char → Option (Nat × List Char)) :
    Nat → Bool → List Char → List Char
  | 0, _, s => s
  | _ + 1, _, [] => []
  | fuel + 1, atLS, c :: cs =>
    match step atLS (c :: cs) with
    | some (n, repl) =>
        repl ++ runRule step fuel (decide ((c :: cs).get? (n - 1) = some '\n'))
          ((c :: cs).drop n)
    | none => c :: runRule step fuel (c == '\n') cs

/-- One global-replace pass over a whole string. -/
def applyRule (step : Bool → List Char → Option (Nat × List Char))
    (s : List Char) : List Char :=
  runRule step s.length true s

/-- Rule 1: ``/```([\s\S]*?)```/g`` → `<pre><code>$1</code></pre>`. -/
def fenceStep (_ : Bool) (s : List Char) : Option (Nat × List Char) :=
  let fm := [backquoteC, backquoteC, backquoteC]
  if leadsWith fm s then
    match findClose true fm (s.drop 3) with
    | some (b, _) =>
        some (3 + b.length + 3,
          String.toList "<pre><code>" ++ b ++ String.toList "</code></pre>")
    | none => none
  else none

/-- A line-anchored rule `/^MARK(.*$)/gm` → `OP$1CL` (headings, blockquote,
bullet list). -/
def lineWrapStep (mk op cl : List Char) (atLS : Bool) (s : List Char) :
    Option (Nat × List Char) :=
  if atLS && leadsWith mk s then
    let rest := (s.drop mk.length).takeWhile (· != '\n')
    some (mk.length + rest.length, op ++ rest ++ cl)
  else none

/-- Rule 6: `/^\d+\. (.*$)/gm` → `<ol><li>$1</li></ol>`. -/
def olStep (atLS : Bool) (s : List Char) : Option (Nat × List Char) :=
  let ds := s.takeWhile Char.isDigit
  if atLS && !ds.isEmpty && leadsWith (String.toList ". ") (s.drop ds.length) then
    let rest := (s.drop (ds.length + 2)).takeWhile (· != '\n')
    some (ds.length + 2 + rest.length,
      String.toList "<ol><li>" ++ rest ++ String.toList "</li></ol>")
  else none

/-- Rule 8: `/^---([\s\S])/gm` → `<hr>$1` (the single captured character is
re-emitted after the `<hr>`). -/
def hrStep (atLS : Bool) (s : List Char) : Option (Nat × List Char) :=
  if atLS && leadsWith (String.toList "---") s then
    match s.drop 3 with
    | [] => none
    | c :: _ => some (4, String.toList "<hr>" ++ [c])
  else none

/-- An inline wrap rule `/M(.*?)M/g` → `OP$1CL` for a literal marker
`c0 :: m0` (bold, italic, inline code, strikethrough). -/
def inlineWrapStep (c0 : Char) (m0 op cl : List Char) (_ : Bool) (s : List Char) :
    Option (Nat × List Char) :=
  if leadsWith (c0 :: m0) s then
    match findClose false (c0 :: m0) (s.drop (m0.length + 1)) with
    | some (b, _) => some ((m0.length + 1) + b.length + (m0.length + 1), op ++ b ++ cl)
    | none => none
  else none

/-- Backtracking match of `(.*?)\]\((.*?)\)` against `s`: candidate first
groups end at successive `]` occurrences; for each, the remainder must be
`(`, a lazily matched second group and `)`, otherwise the first group
extends past that `]`.  Returns the two capture groups. -/
def linkBody : Nat → List Char → Option (List Char × List Char)
  | 0, _ => none
  | fuel + 1, s =>
    match findClose false [']'] s with
    | none => none
    | some (b1, r1) =>
      match r1 with
      | '(' :: r2 =>
        match findClose false [')'] r2 with
        | some (b2, _) => some (b1, b2)
        | none =>
          match linkBody fuel r1 with
          | some (g1, g2) => some (b1 ++ ']' :: g1, g2)
          | none => none
      | _ =>
        match linkBody fuel r1 with
        | some (g1, g2) => some (b1 ++ ']' :: g1, g2)
        | none => none

/-- Rule 13: `/\[(.*?)\]\((.*?)\)/g` → `<a href="$2">$1</a>`. -/
def linkStep (_ : Bool) (s : List Char) : Option (Nat × List Char) :=
  match s with
  | '[' :: rest =>
    match linkBody rest.length rest with
    | some (g1, g2) =>
        some (1 + g1.length + 2 + g2.length + 1,
          String.toList "<a href=\"" ++ g2 ++ String.toList "\">" ++ g1
            ++ String.toList "</a>")
    | none => none
  | _ => none

/-- Rule 14: `/!\[(.*?)\]\((.*?)\)/g` → `<img src="$2" alt="$1">`. -/
def imageStep (_ : Bool) (s : List Char) : Option (Nat × List Char) :=
  match s with
  | '!' :: '[' :: rest =>
    match linkBody rest.length rest with
    | some (g1, g2) =>
        some (2 + g1.length + 2 + g2.length + 1,
          String.toList "<img src=\"" ++ g2 ++ String.toList "\" alt=\"" ++ g1
            ++ String.toList "\">")
    | none => none
  | _ => none

/-- Post-processing (line 181): `/<\/[ou]l>\s*<[ou]l>/g` → `''`.  Note the
character class `[ou]` appears on *both* sides, so mixed `</ol>…<ul>` and
`</ul>…<ol>` boundaries are also removed. -/
def collapseStep (_ : Bool) (s : List Char) : Option (Nat × List Char) :=
  if leadsWith (String.toList "</ol>") s || leadsWith (String.toList "</ul>") s then
    let r := s.drop 5
    let ws := r.takeWhile wsChar
    let r2 := r.drop ws.length
    if leadsWith (String.toList "<ol>") r2 || leadsWith (String.toList "<ul>") r2 then
      some (5 + ws.length + 4, [])
    else none
  else none

/-- Final step (line 184): `/\n/g` → `<br>`. -/
def brStep (_ : Bool) (s : List Char) : Option (Nat × List Char) :=
  match s with
  | '\n' :: _ => some (1, String.toList "<br>")
  | _ => none

/-- The Markdown-to-HTML converter `convertToHTML` (lines 152–187): the
ordered conversion list, then the list-boundary collapse, then
newline-to-`<br>`. -/
def convertToHTML (t : List Char) : List Char :=
  let h := applyRule fenceStep t
  let h := applyRule (lineWrapStep (String.toList "### ")
    (String.toList "<h3>") (String.toList "</h3>")) h
  let h := applyRule (lineWrapStep (String.toList "## ")
    (String.toList "<h2>") (String.toList "</h2>")) h
  let h := applyRule (lineWrapStep (String.toList "# ")
    (String.toList "<h1>") (String.toList "</h1>")) h
  let h := applyRule (lineWrapStep (String.toList "> ")
    (String.toList "<blockquote>") (String.toList "</blockquote>")) h
  let h := applyRule olStep h
  let h := applyRule (lineWrapStep (String.toList "- ")
    (String.toList "<ul><li>") (String.toList "</li></ul>")) h
  let h := applyRule hrStep h
  let h := applyRule (inlineWrapStep '*' ['*']
    (String.toList "<strong>") (String.toList "</strong>")) h
  let h := applyRule (inlineWrapStep '*' []
    (String.toList "<em>") (String.toList "</em>")) h
  let h := applyRule (inlineWrapStep backquoteC []
    (String.toList "<code>") (String.toList "</code>")) h
  let h := applyRule (inlineWrapStep '~' ['~']
    (String.toList "<del>") (String.toList "</del>")) h
  let h := applyRule linkStep h
  let h := applyRule imageStep h
  let h := applyRule collapseStep h
  let h := applyRule brStep h
  h

/-! ### Characterizations of the scanning primitives -/

theorem leadsWith_iff (m s : List Char) : leadsWith m s = true ↔ ∃ r, s = m ++ r := by
  induction m generalizing s with
  | nil => simp [leadsWith]
  | cons c m ih =>
    cases s with
    | nil =>
      constructor
      · intro h
        exact absurd h (by simp [leadsWith])
      · rintro ⟨r, h⟩
        exact absurd h (by simp)
    | cons d s =>
      simp only [leadsWith, Bool.and_eq_true, beq_iff_eq, ih, List.cons_append]
      constructor
      · rintro ⟨rfl, r, rfl⟩
        exact ⟨r, rfl⟩
      · rintro ⟨r, h⟩
        injection h with h1 h2
        exact ⟨h1.symm, r, h2⟩

theorem leadsWith_append_self (m r : List Char) : leadsWith m (m ++ r) = true :=
  (leadsWith_iff m _).2 ⟨r, rfl⟩

theorem leadsWith_drop (m s : List Char) (h : leadsWith m s = true) :
    s = m ++ s.drop m.length := by
  rcases (leadsWith_iff m s).1 h with ⟨r, rfl⟩
  simp

theorem occursIn_iff (m s : List Char) :
    occursIn m s = true ↔ ∃ a b, s = a ++ m ++ b := by
  induction s with
  | nil =>
    simp only [occursIn]
    constructor
    · intro h
      rcases (leadsWith_iff m []).1 h with ⟨r, hr⟩
      exact ⟨[], r, by simpa using hr⟩
    · rintro ⟨a, b, h⟩
      have ha : a = [] ∧ m ++ b = [] := by
        have := h.symm
        rwa [List.append_assoc, List.append_eq_nil] at this
      have hm : m = [] ∧ b = [] := by
        have := ha.2
        rwa [List.append_eq_nil] at this
      rw [hm.1]
      simp [leadsWith]
  | cons c cs ih =>
    simp only [occursIn, Bool.or_eq_true, ih, leadsWith_iff]
    constructor
    · rintro (⟨r, hr⟩ | ⟨a, b, hab⟩)
      · exact ⟨[], r, by simpa using hr⟩
      · exact ⟨c :: a, b, by simp [hab]⟩
    · rintro ⟨a, b, hab⟩
      cases a with
      | nil => exact Or.inl ⟨b, by simpa using hab⟩
      | cons a0 a' =>
        right
        injection hab with h1 h2
        exact ⟨a', b, h2⟩

theorem findClose_eq_some (anyc : Bool) (m : List Char) :
    ∀ s b r : List Char, findClose anyc m s = some (b, r) →
      s = b ++ m ++ r ∧ (anyc = false → '\n' ∉ b) := by
  intro s
  induction s with
  | nil =>
    intro b r h
    simp only [findClose] at h
    split at h
    · next hl =>
      simp only [Option.some.injEq, Prod.mk.injEq, List.drop_nil] at h
      obtain ⟨hb, hr⟩ := h
      subst hb
      subst hr
      rcases (leadsWith_iff m []).1 hl with ⟨r', hr'⟩
      have hm : m = [] := by
        have := hr'.symm
        rw [List.append_eq_nil] at this
        exact this.1
      subst hm
      simp
    · exact absurd h (by simp)
  | cons c cs ih =>
    intro b r h
    simp only [findClose] at h
    split at h
    · next hl =>
      simp only [Option.some.injEq, Prod.mk.injEq] at h
      obtain ⟨hb, hr⟩ := h
      subst hb
      subst hr
      refine ⟨?_, by simp⟩
      simpa using leadsWith_drop m (c :: cs) hl
    · next hl =>
      split at h
      · exact absurd h (by simp)
      · next hnl =>
        cases hfc : findClose anyc m cs with
        | none =>
          rw [hfc] at h
          exact absurd h (by simp)
        | some br =>
          obtain ⟨b', r'⟩ := br
          rw [hfc] at h
          simp only [Option.some.injEq, Prod.mk.injEq] at h
          obtain ⟨hb, hr⟩ := h
          subst hb
          subst hr
          obtain ⟨hdec, hnlb⟩ := ih b' r' hfc
          constructor
          · simpa using congrArg (c :: ·) hdec
          · intro hf
            have hcnl : c ≠ '\n' := fun hc => hnl ⟨hf, hc⟩
            intro hmem
            rcases List.mem_cons.1 hmem with h' | h'
            · exact hcnl h'.symm
            · exact hnlb hf h'

theorem findClose_eq_none (anyc : Bool) (m : List Char) :
    ∀ s : List Char, findClose anyc m s = none →
      ¬ ∃ b r, s = b ++ m ++ r ∧ (anyc = false → '\n' ∉ b) := by
  intro s
  induction s with
  | nil =>
    intro h
    rintro ⟨b, r, hbr, -⟩
    have hb : b = [] ∧ m ++ r = [] := by
      have := hbr.symm
      rwa [List.append_assoc, List.append_eq_nil] at this
    have hm : m = [] := by
      have := hb.2
      rw [List.append_eq_nil] at this
      exact this.1
    subst hm
    simp [findClose, leadsWith] at h
  | cons c cs ih =>
    intro h
    rintro ⟨b, r, hbr, hnlb⟩
    simp only [findClose] at h
    split at h
    · exact absurd h (by simp)
    · next hl =>
      cases b with
      | nil =>
        refine hl ?_
        exact (leadsWith_iff m (c :: cs)).2 ⟨r, by simpa using hbr⟩
      | cons b0 b' =>
        injection hbr with h1 h2
        subst h1
        split at h
        · next hcnl =>
          obtain ⟨ha, hc⟩ := hcnl
          subst ha
          subst hc
          exact hnlb rfl (List.mem_cons_self _ _)
        · next hcnl =>
          cases hfc : findClose anyc m cs with
          | some br =>
            rw [hfc] at h
            exact absurd h (by simp)
          | none =>
            refine ih hfc ⟨b', r, h2, ?_⟩
            intro ha hmem
            exact hnlb ha (List.mem_cons_of_mem _ hmem)

theorem patTest_iff (c0 : Char) (m0 : List Char) (s : List Char) :
    patTest c0 m0 s = true ↔
      ∃ a b c, s = a ++ (c0 :: m0) ++ b ++ (c0 :: m0) ++ c ∧ '\n' ∉ b := by
  induction s with
  | nil =>
    simp only [patTest]
    constructor
    · intro h
      exact absurd h (by simp)
    · rintro ⟨a, b, c, habc, -⟩
      exfalso
      have := habc.symm
      rw [List.append_assoc, List.append_assoc, List.append_assoc, List.append_eq_nil] at this
      simp at this
  | cons d cs ih =>
    simp only [patTest, Bool.or_eq_true, Bool.and_eq_true, ih]
    constructor
    · rintro (⟨hl, hsome⟩ | ⟨a, b, c, habc, hb⟩)
      · cases hfc : findClose false (c0 :: m0) (cs.drop m0.length) with
        | none => rw [hfc] at hsome; simp at hsome
        | some br =>
          obtain ⟨b, r⟩ := br
          obtain ⟨hdec, hnlb⟩ := findClose_eq_some false (c0 :: m0) _ b r hfc
          refine ⟨[], b, r, ?_, hnlb rfl⟩
          have hfront := leadsWith_drop (c0 :: m0) (d :: cs) hl
          have hdrop : (d :: cs).drop (c0 :: m0).length = cs.drop m0.length := by
            simp [List.length_cons]
          rw [hdrop] at hfront
          rw [hfront, hdec]
          simp
      · exact ⟨d :: a, b, c, by simp [habc], hb⟩
    · rintro ⟨a, b, c, habc, hb⟩
      cases a with
      | nil =>
        left
        simp only [List.nil_append] at habc
        have hl : leadsWith (c0 :: m0) (d :: cs) = true :=
          (leadsWith_iff _ _).2 ⟨b ++ (c0 :: m0) ++ c, by simpa [List.append_assoc] using habc⟩
        refine ⟨hl, ?_⟩
        have hdrop : (d :: cs).drop (c0 :: m0).length = cs.drop m0.length := by
          simp [List.length_cons]
        have hrest : cs.drop m0.length = b ++ (c0 :: m0) ++ c := by
          rw [← hdrop, habc]
          simp [List.append_assoc]
        cases hfc : findClose false (c0 :: m0) (cs.drop m0.length) with
        | some br => simp
        | none =>
          exfalso
          exact findClose_eq_none false (c0 :: m0) _ hfc
            ⟨b, c, by simpa [List.append_assoc] using hrest, fun _ => hb⟩
      | cons a0 a' =>
        right
        injection habc with h1 h2
        exact ⟨a', b, c, by simpa [List.append_assoc] using h2, hb⟩

/-! ### Substring and index-search facts -/

theorem substringJS_eq (t : List Char) (a b : Nat) (hab : a ≤ b) (hb : b ≤ t.length) :
    substringJS t a b = (t.drop a).take (b - a) := by
  have h1 : min (min a t.length) (min b t.length) = a := by omega
  have h2 : max (min a t.length) (min b t.length) = b := by omega
  simp only [substringJS, h1, h2]

theorem substringJS_zero (t : List Char) (s : Nat) (hs : s ≤ t.length) :
    substringJS t 0 s = t.take s := by
  rw [substringJS_eq t 0 s (Nat.zero_le s) hs]
  simp

theorem substringJS_len (t : List Char) (e : Nat) (he : e ≤ t.length) :
    substringJS t e t.length = t.drop e := by
  rw [substringJS_eq t e t.length he (le_refl _)]
  exact List.take_of_length_le (by simp)

theorem lastIdxLe_eq_some (t : List Char) (c : Char) (p k : Nat)
    (h1 : t.get? k = some c) (h2 : k ≤ p)
    (h3 : ∀ j, k < j → j ≤ p → t.get? j ≠ some c) :
    lastIdxLe t c p = some k := by
  induction p with
  | zero =>
    have hk : k = 0 := Nat.le_zero.1 h2
    subst hk
    simp only [lastIdxLe]
    rw [if_pos h1]
  | succ p ih =>
    by_cases hp : t.get? (p + 1) = some c
    · have hk : k = p + 1 := by
        by_contra hne
        have hlt : k < p + 1 := by omega
        exact h3 (p + 1) hlt (le_refl _) hp
      subst hk
      simp only [lastIdxLe]
      rw [if_pos hp]
    · have hk : k ≤ p := by
        rcases Nat.lt_or_ge k (p + 1) with h | h
        · omega
        · have hk1 : k = p + 1 := by omega
          subst hk1
          exact absurd h1 hp
      simp only [lastIdxLe]
      rw [if_neg hp]
      exact ih hk fun j hj1 hj2 => h3 j hj1 (by omega)

theorem lastIdxLe_eq_none (t : List Char) (c : Char) (p : Nat)
    (h : ∀ j, j ≤ p → t.get? j ≠ some c) :
    lastIdxLe t c p = none := by
  induction p with
  | zero =>
    simp only [lastIdxLe]
    rw [if_neg (h 0 (le_refl _))]
  | succ p ih =>
    simp only [lastIdxLe]
    rw [if_neg (h (p + 1) (le_refl _))]
    exact ih fun j hj => h j (by omega)

theorem idxFrom_some_get (c : Char) :
    ∀ (s : List Char) (k : Nat), idxFrom c s = some k → s.get? k = some c := by
  intro s
  induction s with
  | nil =>
    intro k h
    simp [idxFrom] at h
  | cons d s ih =>
    intro k h
    simp only [idxFrom] at h
    split at h
    · next hd =>
      simp only [Option.some.injEq] at h
      subst h
      simp [hd]
    · next hd =>
      cases hix : idxFrom c s with
      | none =>
        rw [hix] at h
        simp at h
      | some k' =>
        rw [hix] at h
        simp only [Option.map_some', Option.some.injEq] at h
        subst h
        simpa using ih k' hix

theorem lineEndV_facts (t : List Char) (e : Nat) (he : e ≤ t.length) :
    e ≤ (idxOfGe t '\n' e).getD t.length ∧
    (idxOfGe t '\n' e).getD t.length ≤ t.length ∧
    (t.drop ((idxOfGe t '\n' e).getD t.length) = [] ∨
      (t.drop ((idxOfGe t '\n' e).getD t.length)).head? = some '\n') := by
  cases hix : idxOfGe t '\n' e with
  | none =>
    refine ⟨he, le_refl _, Or.inl ?_⟩
    simp
  | some v =>
    simp only [Option.getD_some]
    obtain ⟨k, hk, hv⟩ : ∃ k, idxFrom '\n' (t.drop e) = some k ∧ v = k + e := by
      simp only [idxOfGe] at hix
      cases hif : idxFrom '\n' (t.drop e) with
      | none => rw [hif] at hix; simp at hix
      | some k =>
        rw [hif] at hix
        simp only [Option.map_some', Option.some.injEq] at hix
        exact ⟨k, rfl, hix.symm⟩
    have hget : t.get? v = some '\n' := by
      have := idxFrom_some_get '\n' (t.drop e) k hk
      rw [List.get?_drop] at this
      rw [hv, Nat.add_comm]
      exact this
    have hvlen : v < t.length := by
      by_contra hge
      rw [List.get?_eq_none.2 (by omega)] at hget
      exact Option.noConfusion hget
    refine ⟨by omega, by omega, Or.inr ?_⟩
    cases hd : t.drop v with
    | nil =>
      have : t.length ≤ v := by
        have := congrArg List.length hd
        simp at this
        omega
      omega
    | cons x xs =>
      have hx : t.get? v = some x := by
        have : (t.drop v).get? 0 = some x := by rw [hd]; rfl
        rwa [List.get?_drop, Nat.add_zero] at this
      rw [hx] at hget
      simp only [List.head?_cons]
      exact hget

/-! ### The bold wrap/unwrap round trip -/

/-- Whether a string ends in `'*'` (the straddling case for the closing
search of `/\*\*(.*?)\*\*/`). -/
def endsWithStar : List Char → Bool
  | [] => false
  | [c] => c == '*'
  | _ :: c :: cs => endsWithStar (c :: cs)

theorem endsWithStar_spec :
    ∀ s : List Char, endsWithStar s = true → s.dropLast ++ ['*'] = s := by
  intro s
  induction s with
  | nil => intro h; simp [endsWithStar] at h
  | cons c cs ih =>
    intro h
    cases cs with
    | nil =>
      simp only [endsWithStar, beq_iff_eq] at h
      subst h
      rfl
    | cons d cs' =>
      have h' : endsWithStar (d :: cs') = true := by
        simpa [endsWithStar] using h
      have := ih h'
      calc (c :: d :: cs').dropLast ++ ['*']
        = c :: ((d :: cs').dropLast ++ ['*']) := by simp
        _ = c :: d :: cs' := by rw [this]

theorem leadsWith_two (c d : Char) (r : List Char) :
    leadsWith ['*', '*'] (c :: d :: r) = (('*' == c) && ('*' == d)) := by
  simp [leadsWith]

theorem findClose_cons (anyc : Bool) (m : List Char) (c : Char) (cs : List Char) :
    findClose anyc m (c :: cs) =
      if leadsWith m (c :: cs) = true then some ([], (c :: cs).drop m.length)
      else if anyc = false ∧ c = '\n' then none
      else
        match findClose anyc m cs with
        | some (b, r) => some (c :: b, r)
        | none => none := rfl

theorem findClose_pad (s : List Char) (hnl : '\n' ∉ s)
    (hocc : occursIn ['*', '*'] s = false) :
    findClose false ['*', '*'] (s ++ ['*', '*']) =
      if endsWithStar s then some (s.dropLast, ['*']) else some (s, []) := by
  induction s with
  | nil => decide
  | cons c cs ih =>
    have hc : c ≠ '\n' := by
      intro h
      exact hnl (h ▸ List.mem_cons_self c cs)
    have hnl' : '\n' ∉ cs := fun h => hnl (List.mem_cons_of_mem c h)
    have hlw : leadsWith ['*', '*'] (c :: cs) = false := by
      have h := hocc
      simp only [occursIn, Bool.or_eq_false_iff] at h
      exact h.1
    have hocc' : occursIn ['*', '*'] cs = false := by
      have h := hocc
      simp only [occursIn, Bool.or_eq_false_iff] at h
      exact h.2
    have hcond : ¬ (false = false ∧ c = '\n') := fun h => hc h.2
    cases cs with
    | nil =>
      by_cases hstar : c = '*'
      · subst hstar
        decide
      · show findClose false ['*', '*'] (c :: ['*', '*']) =
          if endsWithStar [c] = true then some ([c].dropLast, ['*']) else some ([c], [])
        rw [findClose_cons]
        rw [if_neg (by rw [leadsWith_two]; simp [Ne.symm hstar])]
        rw [if_neg hcond]
        rw [(by decide : findClose false ['*', '*'] ['*', '*'] = some ([], []))]
        rw [if_neg (by simp [endsWithStar, hstar])]
    | cons d cs' =>
      show findClose false ['*', '*'] (c :: (d :: cs' ++ ['*', '*'])) =
        if endsWithStar (c :: d :: cs') = true
        then some ((c :: d :: cs').dropLast, ['*']) else some (c :: d :: cs', [])
      rw [findClose_cons]
      rw [if_neg (by
        show ¬ leadsWith ['*', '*'] (c :: d :: (cs' ++ ['*', '*'])) = true
        rw [leadsWith_two]
        rw [leadsWith_two] at hlw
        simp [hlw])]
      rw [if_neg hcond]
      rw [ih hnl' hocc']
      by_cases hS : endsWithStar (d :: cs') = true
      · rw [if_pos hS]
        rw [if_pos (show endsWithStar (c :: d :: cs') = true from hS)]
        rfl
      · rw [if_neg hS]
        rw [if_neg (show ¬ endsWithStar (c :: d :: cs') = true from hS)]

theorem replaceG_pad (s : List Char) (hnl : '\n' ∉ s)
    (hocc : occursIn ['*', '*'] s = false) :
    replaceG '*' ['*'] (['*', '*'] ++ s ++ ['*', '*']) = s := by
  have hlen : (['*', '*'] ++ s ++ ['*', '*']).length = s.length + 3 + 1 := by
    simp
  unfold replaceG
  rw [hlen]
  show replaceGF '*' ['*'] (s.length + 3 + 1) ('*' :: '*' :: (s ++ ['*', '*'])) = s
  simp only [replaceGF]
  rw [if_pos (by rw [leadsWith_two]; simp)]
  have hdrop : ('*' :: (s ++ ['*', '*'])).drop ['*'].length = s ++ ['*', '*'] := rfl
  rw [hdrop, findClose_pad s hnl hocc]
  by_cases hS : endsWithStar s = true
  · rw [if_pos hS]
    have h1 : replaceGF '*' ['*'] (s.length + 3) ['*'] = ['*'] := by
      have h2 : leadsWith ['*', '*'] ['*'] = false := by decide
      simp only [replaceGF, h2, Bool.false_eq_true, if_false]
    simp only [h1]
    exact endsWithStar_spec s hS
  · rw [if_neg hS]
    simp [replaceGF]

/-! ### Line-format machinery -/

theorem leadsWith_append_nlbound (m : List Char) (hm : '\n' ∉ m) :
    ∀ a b : List Char, (b = [] ∨ b.head? = some '\n') →
      leadsWith m (a ++ b) = leadsWith m a := by
  induction m with
  | nil => intro a b _; simp [leadsWith]
  | cons c m ih =>
    intro a b hb
    cases a with
    | nil =>
      rcases hb with rfl | hh
      · simp
      · cases b with
        | nil => simp at hh
        | cons b0 b' =>
          simp only [List.head?_cons, Option.some.injEq] at hh
          subst hh
          have hc : c ≠ '\n' := by
            intro h
            exact hm (h ▸ List.mem_cons_self c m)
          simp only [List.nil_append, leadsWith]
          have hcf : (c == '\n') = false := by
            simp [hc]
          rw [hcf]
          simp
    | cons a0 a' =>
      have hm' : '\n' ∉ m := fun h => hm (List.mem_cons_of_mem c h)
      show leadsWith (c :: m) (a0 :: (a' ++ b)) = leadsWith (c :: m) (a0 :: a')
      simp only [leadsWith]
      rw [ih hm' a' b hb]

theorem lineStartOf_det (t : List Char) (s ls : Nat)
    (hls1 : ls ≤ s)
    (hls2 : ∀ i, ls ≤ i → i < s → t.get? i ≠ some '\n')
    (hls3 : ls = 0 ∨ t.get? (ls - 1) = some '\n')
    (hanom : ¬ (s = 0 ∧ t.get? 0 = some '\n')) :
    lineStartOf t s = ls := by
  unfold lineStartOf
  by_cases hls0 : ls = 0
  · subst hls0
    have hnone : lastIdxLe t '\n' (s - 1) = none := by
      apply lastIdxLe_eq_none
      intro j hj
      rcases Nat.eq_zero_or_pos s with rfl | hs
      · have hj0 : j = 0 := by omega
        subst hj0
        intro hcon
        exact hanom ⟨rfl, hcon⟩
      · rcases hls3 with _ | hprev
        · exact hls2 j (Nat.zero_le j) (by omega)
        · exact hls2 j (Nat.zero_le j) (by omega)
    rw [hnone]
  · have hprev : t.get? (ls - 1) = some '\n' := by
      rcases hls3 with h0 | h
      · exact absurd h0 hls0
      · exact h
    have hlspos : 0 < ls := Nat.pos_of_ne_zero hls0
    have hspos : 0 < s := by omega
    have hsome : lastIdxLe t '\n' (s - 1) = some (ls - 1) := by
      apply lastIdxLe_eq_some t '\n' (s - 1) (ls - 1) hprev (by omega)
      intro j hj1 hj2
      exact hls2 j (by omega) (by omega)
    rw [hsome]
    show ls - 1 + 1 = ls
    omega

theorem lineApply_at (mk t : List Char) (s e ls : Nat)
    (hm : '\n' ∉ mk)
    (hdet : lineStartOf t s = ls)
    (hls : ls ≤ s) (hse : s ≤ e) (hel : e ≤ t.length) :
    lineApply mk t s e =
      ⟨if leadsWith mk (t.drop ls) then
          t.take ls ++ t.drop (ls + mk.length)
        else t.take ls ++ mk ++ t.drop ls, s⟩ := by
  obtain ⟨hev, hvl, hbound⟩ := lineEndV_facts t e hel
  simp only [lineApply]
  rw [hdet]
  set lv := (idxOfGe t '\n' e).getD t.length with hlv
  have hlsv : ls ≤ lv := by omega
  have hlsl : ls ≤ t.length := by omega
  rw [substringJS_zero t ls hlsl, substringJS_len t lv hvl,
    substringJS_eq t ls lv hlsv hvl]
  have hsplit : (t.drop ls).take (lv - ls) ++ t.drop lv = t.drop ls := by
    have hdd : (t.drop ls).drop (lv - ls) = t.drop lv := by
      rw [List.drop_drop]
      congr 1
      omega
    calc (t.drop ls).take (lv - ls) ++ t.drop lv
        = (t.drop ls).take (lv - ls) ++ (t.drop ls).drop (lv - ls) := by rw [hdd]
      _ = t.drop ls := List.take_append_drop _ _
  have hlwEq : leadsWith mk ((t.drop ls).take (lv - ls)) = leadsWith mk (t.drop ls) := by
    conv_rhs => rw [← hsplit]
    rw [leadsWith_append_nlbound mk hm _ _ hbound]
  by_cases hF : leadsWith mk ((t.drop ls).take (lv - ls)) = true
  · rw [if_pos hF]
    rw [if_pos (hlwEq ▸ hF)]
    have hcl : (t.drop ls).take (lv - ls) =
        mk ++ ((t.drop ls).take (lv - ls)).drop mk.length :=
      leadsWith_drop _ _ hF
    have h2 : t.drop (ls + mk.length) = (t.drop ls).drop mk.length := by
      rw [List.drop_drop, Nat.add_comm]
    simp only [ApplyResult.mk.injEq]
    refine ⟨?_, trivial⟩
    generalize hA : (t.drop ls).take (lv - ls) = A at hsplit hcl ⊢
    rw [h2, ← hsplit]
    conv_rhs => rw [hcl, List.append_assoc]
    rw [List.drop_left]
    rw [List.append_assoc]
  · rw [if_neg hF]
    rw [if_neg (by rw [← hlwEq]; exact hF)]
    simp only [ApplyResult.mk.injEq]
    refine ⟨?_, trivial⟩
    generalize hA : (t.drop ls).take (lv - ls) = A at hsplit ⊢
    rw [← hsplit]
    simp [List.append_assoc]

/-! ### Frame helpers for the non-line branches -/

theorem inlineApply_frame (pat : Option (Char × List Char)) (mk t : List Char) (s e : Nat) :
    ∃ mid, (inlineApply pat mk t s e).newText
      = substringJS t 0 s ++ mid ++ substringJS t e t.length :=
  ⟨_, rfl⟩

theorem blockApply_frame (mk endMk t : List Char) (s e : Nat) :
    ∃ mid, (blockApply mk endMk t s e).newText
      = substringJS t 0 s ++ mid ++ substringJS t e t.length := by
  refine ⟨mk ++ substringJS t s e ++ endMk, ?_⟩
  show substringJS t 0 s ++ mk ++ substringJS t s e ++ endMk ++ substringJS t e t.length = _
  simp [List.append_assoc]

theorem specialApply_frame (mk : List Char) (handler : Option (List Char → List Char))
    (t : List Char) (s e : Nat) :
    ∃ mid, (specialApply mk handler t s e).newText
      = substringJS t 0 s ++ mid ++ substringJS t e t.length := by
  cases handler with
  | some h => exact ⟨_, rfl⟩
  | none => exact ⟨mk, rfl⟩

/-! ### Claims -/

/-- Claim C1, counterexample: for the bold format, the selection
`a **b** c` is *not* exactly `marker+content+marker`, yet the code detects
it as formatted — `pattern.test` matches anywhere in the selection — and
strips the inner markers instead of wrapping the selection. -/
theorem C1_cex :
    (formatText (String.toList "a **b** c") 0 9 FormatKey.bold).newText
      = String.toList "a b c"
    ∧ (formatText (String.toList "a **b** c") 0 9 FormatKey.bold).newText
      ≠ String.toList "**a **b** c**" := by decide

/-- Claim C2, counterexample: the bold pattern does not match the selection
`**a`, wrapping yields `****a**`, but applying bold to that full span
strips the *leftmost lazy* match `****` and leaves `a**`, not the original
`**a` — the round trip fails. -/
theorem C2_cex :
    patTest '*' ['*'] (String.toList "**a") = false
    ∧ (formatText (String.toList "**a") 0 3 FormatKey.bold).newText
      = String.toList "****a**"
    ∧ (formatText (String.toList "****a**") 0 7 FormatKey.bold).newText
      = String.toList "a**"
    ∧ String.toList "a**" ≠ String.toList "**a" := by decide

/-- Claim C3: the claim (and rule 12 of the spec) says
`render "![alt](url)"` produces `<img src="url" alt="alt">`; the code runs
the link rule (11) first, which consumes `[alt](url)`, so the image rule
never matches and the output is `!<a href="url">alt</a>`.  The image rule
is dead code for standard image syntax, contradicting the image toolbar
button's own documentation — a rule-ordering slip in the code. -/
theorem C3_thm :
    convertToHTML (String.toList "![alt](url)")
      = String.toList "!<a href=\"url\">alt</a>"
    ∧ convertToHTML (String.toList "![alt](url)")
      ≠ String.toList "<img src=\"url\" alt=\"alt\">" := by decide

/-- Claim C4, counterexample: applying horizontalRule with the non-empty
selection `abc` (0..3) *does* consume the selection: the selected text is
gone from the result `\n---\n`. -/
theorem C4_cex :
    (formatText (String.toList "abc") 0 3 FormatKey.horizontalRule).newText
      = String.toList "\n---\n"
    ∧ occursIn (String.toList "abc")
        ((formatText (String.toList "abc") 0 3 FormatKey.horizontalRule).newText)
      = false := by decide

/-- Claim C4 (amended): for every text and valid selection, the
handler-less special format horizontalRule *replaces the selection* with
the marker literal `\n---\n` (the selected text is removed when the
selection is non-empty), and the cursor lands immediately after the
inserted marker, at selectionStart + 5. -/
theorem C4_thm (t : List Char) (s e : Nat) (hse : s ≤ e) (hel : e ≤ t.length) :
    (formatText t s e FormatKey.horizontalRule).newText
      = t.take s ++ String.toList "\n---\n" ++ t.drop e
    ∧ (formatText t s e FormatKey.horizontalRule).newCursor = s + 5 := by
  have h : formatText t s e FormatKey.horizontalRule
      = specialApply (String.toList "\n---\n") none t s e := rfl
  rw [h]
  constructor
  · show substringJS t 0 s ++ String.toList "\n---\n" ++ substringJS t e t.length = _
    rw [substringJS_zero t s (le_trans hse hel), substringJS_len t e hel]
  · rfl

/-- Witness for C4 at a concrete input. -/
theorem C4_w :
    (formatText (String.toList "abc") 1 2 FormatKey.horizontalRule).newText
      = String.toList "a\n---\nc"
    ∧ (formatText (String.toList "abc") 1 2 FormatKey.horizontalRule).newCursor = 6 := by
  have h := C4_thm (String.toList "abc") 1 2 (by decide) (by decide)
  refine ⟨?_, ?_⟩
  · rw [h.1]
    decide
  · rw [h.2]

/-- Claim C5, counterexample: for `\nabc` with the caret at 0, the line
containing the selection start is the empty first line, which does not
start with `# `; yet h1 does not prepend `# ` to that line.  Because
JavaScript clamps `lastIndexOf('\n', -1)` to position 0, the code takes
lineStart = 1 and (after `substring` swaps its crossed arguments) produces
`\n# \n\nabc` instead of `# \nabc`. -/
theorem C5_cex :
    (formatText (String.toList "\nabc") 0 0 FormatKey.h1).newText
      = String.toList "\n# \n\nabc"
    ∧ (formatText (String.toList "\nabc") 0 0 FormatKey.h1).newText
      ≠ String.toList "# \nabc" := by decide

/-- Claim C6, counterexample: the collapse regex `<\/[ou]l>\s*<[ou]l>` has
the class `[ou]` on *both* sides, so the `</ol>`–`<ul>` boundary of
`1. a\n- b` IS collapsed: the output is the merged (tag-mismatched)
`<ol><li>a</li><li>b</li></ul>`, with no closing `</ol>` at all — not two
separate complete list elements. -/
theorem C6_cex :
    convertToHTML (String.toList "1. a\n- b")
      = String.toList "<ol><li>a</li><li>b</li></ul>"
    ∧ occursIn (String.toList "</ol>") (convertToHTML (String.toList "1. a\n- b"))
      = false := by decide

/-- Claim C6 (amended): the post-processing collapse removes *any*
list-close followed (up to whitespace) by *any* list-open, same-type or
mixed.  Same-type runs still merge into one well-formed list, and the mixed
input `1. a\n- b` merges into the single element
`<ol><li>a</li><li>b</li></ul>`. -/
theorem C6_thm :
    convertToHTML (String.toList "1. a\n- b")
      = String.toList "<ol><li>a</li><li>b</li></ul>"
    ∧ convertToHTML (String.toList "1. a\n2. b")
      = String.toList "<ol><li>a</li><li>b</li></ol>"
    ∧ convertToHTML (String.toList "- a\n- b")
      = String.toList "<ul><li>a</li><li>b</li></ul>" := by decide

/-- Claim C7: `render "- a\n- b"` is a single `<ul>` with two `<li>`
entries and no `<br>`: the collapse consumed the boundary newline before
the newline-to-`<br>` rule ran. -/
theorem C7_thm :
    convertToHTML (String.toList "- a\n- b")
      = String.toList "<ul><li>a</li><li>b</li></ul>"
    ∧ occursIn (String.toList "<br>") (convertToHTML (String.toList "- a\n- b"))
      = false := by decide

/-- Claim C8, counterexample: with text `\nabc` and selectionStart 0 there
is no newline strictly before the selection start, so the claim places the
line start at 0; but `lastIndexOf('\n', -1)` clamps to index 0 and finds
the newline *at* position 0, so the code edits at position 1 and produces
`\n- \n\nabc` rather than inserting the marker at position 0. -/
theorem C8_cex :
    (formatText (String.toList "\nabc") 0 0 FormatKey.bulletList).newText
      = String.toList "\n- \n\nabc"
    ∧ (formatText (String.toList "\nabc") 0 0 FormatKey.bulletList).newText
      ≠ String.toList "- \nabc" := by decide

/-- Claim C9: every inline, block, or special format only replaces the
selected region: the prefix before selectionStart and the suffix after
selectionEnd are unchanged. -/
theorem C9_thm (t : List Char) (s e : Nat) (k : FormatKey)
    (hk : (formats k).ftype ≠ FType.line) (hse : s ≤ e) (hel : e ≤ t.length) :
    ∃ mid, (formatText t s e k).newText = t.take s ++ mid ++ t.drop e := by
  have h0 := substringJS_zero t s (le_trans hse hel)
  have h1 := substringJS_len t e hel
  have key : ∃ mid, (formatText t s e k).newText
      = substringJS t 0 s ++ mid ++ substringJS t e t.length := by
    cases k
    case bold => exact inlineApply_frame _ _ _ _ _
    case italic => exact inlineApply_frame _ _ _ _ _
    case code => exact inlineApply_frame _ _ _ _ _
    case strikethrough => exact inlineApply_frame _ _ _ _ _
    case h1 => exact absurd rfl hk
    case h2 => exact absurd rfl hk
    case h3 => exact absurd rfl hk
    case bulletList => exact absurd rfl hk
    case numberList => exact absurd rfl hk
    case blockquote => exact absurd rfl hk
    case horizontalRule => exact specialApply_frame _ _ _ _ _
    case codeBlock => exact blockApply_frame _ _ _ _ _
    case link => exact specialApply_frame _ _ _ _ _
    case image => exact specialApply_frame _ _ _ _ _
  obtain ⟨mid, hmid⟩ := key
  exact ⟨mid, by rw [hmid, h0, h1]⟩

/-- Witness for C9 at a concrete input. -/
theorem C9_w :
    ∃ mid, (formatText (String.toList "abc") 1 2 FormatKey.bold).newText
      = (String.toList "abc").take 1 ++ mid ++ (String.toList "abc").drop 2 :=
  C9_thm (String.toList "abc") 1 2 FormatKey.bold (by decide) (by decide) (by decide)

/-- Claim C10: for the six line formats and the block format codeBlock,
the new cursor position equals the original selectionStart — these
branches never recompute the cursor. -/
theorem C10_thm (t : List Char) (s e : Nat) (k : FormatKey)
    (hk : (formats k).ftype = FType.line ∨ k = FormatKey.codeBlock) :
    (formatText t s e k).newCursor = s := by
  have hline : ∀ mk : List Char, (lineApply mk t s e).newCursor = s := by
    intro mk
    unfold lineApply
    dsimp only
    split
    · rfl
    · rfl
  cases k <;>
    first
      | exact hline _
      | rfl
      | (rcases hk with h | h <;> exact absurd h (by decide))

/-- Witness for C10 at a concrete input. -/
theorem C10_w : (formatText (String.toList "xy") 1 1 FormatKey.h2).newCursor = 1 :=
  C10_thm (String.toList "xy") 1 1 FormatKey.h2 (Or.inl (by decide))

/-- The inline branch, by cases on whether the selection contains a
complete `marker+content+marker` span (content newline-free). -/
theorem inlineApply_cases (c0 : Char) (m0 mk t : List Char) (s e : Nat) :
    ((¬ ∃ a b c, substringJS t s e
        = a ++ (c0 :: m0) ++ b ++ (c0 :: m0) ++ c ∧ '\n' ∉ b) →
      (inlineApply (some (c0, m0)) mk t s e).newText
        = substringJS t 0 s ++ (mk ++ substringJS t s e ++ mk)
          ++ substringJS t e t.length)
    ∧ ((∃ a b c, substringJS t s e
        = a ++ (c0 :: m0) ++ b ++ (c0 :: m0) ++ c ∧ '\n' ∉ b) →
      (inlineApply (some (c0, m0)) mk t s e).newText
        = substringJS t 0 s ++ stripAll (some (c0, m0)) (substringJS t s e)
          ++ substringJS t e t.length) := by
  constructor
  · intro hno
    have hF : patTest c0 m0 (substringJS t s e) = false := by
      cases h : patTest c0 m0 (substringJS t s e)
      · rfl
      · exact absurd ((patTest_iff c0 m0 _).1 h) hno
    show substringJS t 0 s ++
        (if patTest c0 m0 (substringJS t s e) = true
          then stripAll (some (c0, m0)) (substringJS t s e)
          else mk ++ substringJS t s e ++ mk)
        ++ substringJS t e t.length = _
    rw [hF]
    simp
  · intro hyes
    have hT : patTest c0 m0 (substringJS t s e) = true :=
      (patTest_iff c0 m0 _).2 hyes
    show substringJS t 0 s ++
        (if patTest c0 m0 (substringJS t s e) = true
          then stripAll (some (c0, m0)) (substringJS t s e)
          else mk ++ substringJS t s e ++ mk)
        ++ substringJS t e t.length = _
    rw [hT]
    simp

/-- Claim C1 (amended): for an inline format (bold, italic, code,
strikethrough), toggle-off — the global marker strip — happens exactly when
the selected substring *contains* a complete `marker+content+marker` span
with newline-free content anywhere inside it (so e.g. `a **b** c` IS
detected and stripped); only a selection with no such span is wrapped by
prepending and appending the marker. -/
theorem C1_thm (t : List Char) (s e : Nat) (k : FormatKey)
    (hk : k = FormatKey.bold ∨ k = FormatKey.italic ∨ k = FormatKey.code ∨
      k = FormatKey.strikethrough) :
    ((¬ ∃ a b c, substringJS t s e
        = a ++ (formats k).marker ++ b ++ (formats k).marker ++ c ∧ '\n' ∉ b) →
      (formatText t s e k).newText
        = substringJS t 0 s
          ++ ((formats k).marker ++ substringJS t s e ++ (formats k).marker)
          ++ substringJS t e t.length)
    ∧ ((∃ a b c, substringJS t s e
        = a ++ (formats k).marker ++ b ++ (formats k).marker ++ c ∧ '\n' ∉ b) →
      (formatText t s e k).newText
        = substringJS t 0 s ++ stripAll (formats k).pattern (substringJS t s e)
          ++ substringJS t e t.length) := by
  rcases hk with rfl | rfl | rfl | rfl
  · exact inlineApply_cases '*' ['*'] ['*', '*'] t s e
  · exact inlineApply_cases '*' [] ['*'] t s e
  · exact inlineApply_cases backquoteC [] [backquoteC] t s e
  · exact inlineApply_cases '~' ['~'] ['~', '~'] t s e

/-- Witness for C1 at a concrete input (`hello` has no bold span, so it is
wrapped). -/
theorem C1_w :
    (formatText (String.toList "hello") 0 5 FormatKey.bold).newText
      = String.toList "**hello**" := by
  have h := (C1_thm (String.toList "hello") 0 5 FormatKey.bold (Or.inl rfl)).1
  have hno : ¬ ∃ a b c, substringJS (String.toList "hello") 0 5
      = a ++ (formats FormatKey.bold).marker ++ b ++ (formats FormatKey.bold).marker ++ c
      ∧ '\n' ∉ b := by
    intro hex
    have hp : patTest '*' ['*'] (substringJS (String.toList "hello") 0 5) = true :=
      (patTest_iff '*' ['*'] _).2 hex
    exact absurd hp (by decide)
  rw [h hno]
  decide

/-- Claim C2 (amended): for a selection containing no newline and no
occurrence of the bold marker `**`, wrapping with bold and then applying
bold again to the resulting full marked span restores the original text. -/
theorem C2_thm (t : List Char) (s e : Nat) (hse : s ≤ e) (hel : e ≤ t.length)
    (hnl : '\n' ∉ substringJS t s e)
    (hocc : occursIn ['*', '*'] (substringJS t s e) = false) :
    (formatText t s e FormatKey.bold).newText
      = t.take s ++ ['*', '*'] ++ substringJS t s e ++ ['*', '*'] ++ t.drop e
    ∧ (formatText ((formatText t s e FormatKey.bold).newText) s (e + 4)
        FormatKey.bold).newText = t := by
  have hS : substringJS t s e = (t.drop s).take (e - s) := substringJS_eq t s e hse hel
  have hlenS : (substringJS t s e).length = e - s := by
    rw [hS, List.length_take, List.length_drop]
    omega
  have hpt : patTest '*' ['*'] (substringJS t s e) = false := by
    cases h : patTest '*' ['*'] (substringJS t s e)
    · rfl
    · exfalso
      obtain ⟨a, b, c, habc, -⟩ := (patTest_iff '*' ['*'] _).1 h
      have ho : occursIn ['*', '*'] (substringJS t s e) = true :=
        (occursIn_iff _ _).2 ⟨a, b ++ ('*' :: ['*']) ++ c, by
          rw [habc]
          simp [List.append_assoc]⟩
      rw [ho] at hocc
      exact Bool.noConfusion hocc
  have hno : ¬ ∃ a b c, substringJS t s e
      = a ++ ('*' :: ['*']) ++ b ++ ('*' :: ['*']) ++ c ∧ '\n' ∉ b := by
    intro hex
    rw [(patTest_iff '*' ['*'] _).2 hex] at hpt
    exact Bool.noConfusion hpt
  have htake : (t.take s).length = s := by
    rw [List.length_take]
    omega
  have h1 : (formatText t s e FormatKey.bold).newText
      = t.take s ++ (['*', '*'] ++ substringJS t s e ++ ['*', '*']) ++ t.drop e := by
    have hh := (inlineApply_cases '*' ['*'] ['*', '*'] t s e).1 hno
    show (inlineApply (some ('*', ['*'])) ['*', '*'] t s e).newText = _
    rw [hh, substringJS_zero t s (le_trans hse hel), substringJS_len t e hel]
  constructor
  · rw [h1]
    simp [List.append_assoc]
  · rw [h1]
    have hTlen : (t.take s ++ (['*', '*'] ++ substringJS t s e ++ ['*', '*'])
        ++ t.drop e).length = t.length + 4 := by
      simp only [List.length_append, List.length_drop, htake, hlenS, List.length_cons,
        List.length_nil]
      omega
    have hmidlen : (['*', '*'] ++ substringJS t s e ++ ['*', '*']).length = e - s + 4 := by
      simp only [List.length_append, hlenS, List.length_cons, List.length_nil]
      omega
    have hTdrop : (t.take s ++ (['*', '*'] ++ substringJS t s e ++ ['*', '*'])
        ++ t.drop e).drop s = (['*', '*'] ++ substringJS t s e ++ ['*', '*']) ++ t.drop e := by
      rw [List.append_assoc]
      exact List.drop_left' htake
    have hsub : substringJS (t.take s ++ (['*', '*'] ++ substringJS t s e ++ ['*', '*'])
        ++ t.drop e) s (e + 4) = ['*', '*'] ++ substringJS t s e ++ ['*', '*'] := by
      rw [substringJS_eq _ s (e + 4) (by omega) (by rw [hTlen]; omega), hTdrop]
      exact List.take_left' (by rw [hmidlen]; omega)
    have hyes : ∃ a b c, substringJS (t.take s ++ (['*', '*'] ++ substringJS t s e
        ++ ['*', '*']) ++ t.drop e) s (e + 4)
        = a ++ ('*' :: ['*']) ++ b ++ ('*' :: ['*']) ++ c ∧ '\n' ∉ b := by
      refine ⟨[], substringJS t s e, [], ?_, hnl⟩
      rw [hsub]
      simp [List.append_assoc]
    have hh := (inlineApply_cases '*' ['*'] ['*', '*']
      (t.take s ++ (['*', '*'] ++ substringJS t s e ++ ['*', '*']) ++ t.drop e) s (e + 4)).2 hyes
    show (inlineApply (some ('*', ['*'])) ['*', '*'] _ s (e + 4)).newText = t
    rw [hh, hsub]
    have hstrip : stripAll (some ('*', ['*'])) (['*', '*'] ++ substringJS t s e ++ ['*', '*'])
        = substringJS t s e := replaceG_pad (substringJS t s e) hnl hocc
    rw [hstrip]
    have hz : substringJS (t.take s ++ (['*', '*'] ++ substringJS t s e ++ ['*', '*'])
        ++ t.drop e) 0 s = t.take s := by
      rw [substringJS_zero _ s (by rw [hTlen]; omega), List.append_assoc]
      exact List.take_left' htake
    have hl : substringJS (t.take s ++ (['*', '*'] ++ substringJS t s e ++ ['*', '*'])
        ++ t.drop e) (e + 4) (t.take s ++ (['*', '*'] ++ substringJS t s e ++ ['*', '*'])
        ++ t.drop e).length = t.drop e := by
      rw [substringJS_len _ (e + 4) (by rw [hTlen]; omega)]
      exact List.drop_left' (by
        simp only [List.length_append, htake, hmidlen]
        omega)
    rw [hz, hl, hS]
    have hjoin : (t.drop s).take (e - s) ++ t.drop e = t.drop s := by
      have hdd : (t.drop s).drop (e - s) = t.drop e := by
        rw [List.drop_drop]
        congr 1
        omega
      calc (t.drop s).take (e - s) ++ t.drop e
          = (t.drop s).take (e - s) ++ (t.drop s).drop (e - s) := by rw [hdd]
        _ = t.drop s := List.take_append_drop _ _
    rw [List.append_assoc, hjoin]
    exact List.take_append_drop s t

/-- Witness for C2 at the claim's own example (`hello`). -/
theorem C2_w :
    (formatText (String.toList "hello") 0 5 FormatKey.bold).newText
      = String.toList "**hello**"
    ∧ (formatText ((formatText (String.toList "hello") 0 5 FormatKey.bold).newText)
        0 9 FormatKey.bold).newText = String.toList "hello" := by
  have h := C2_thm (String.toList "hello") 0 5 (by decide) (by decide) (by decide) (by decide)
  refine ⟨?_, ?_⟩
  · rw [h.1]
    decide
  · exact h.2

/-- Claim C8 (amended): for every text, valid selection and line format,
provided it is NOT the case that selectionStart = 0 while the text begins
with a newline (in that corner case JavaScript's `lastIndexOf('\n', -1)`
clamps to index 0 and the code edits at position 1 instead), the marker is
inserted at — or stripped from — the position `ls` characterized as the
claim describes it: `ls ≤ start`, no newline in `[ls, start)`, and `ls` is 0
or preceded by a newline.  Only that line start is affected: the result is
`take ls ++ edit ++ drop ls`, even for selections spanning several lines. -/
theorem C8_thm (t : List Char) (s e ls : Nat) (k : FormatKey)
    (hk : k = FormatKey.h1 ∨ k = FormatKey.h2 ∨ k = FormatKey.h3 ∨
      k = FormatKey.bulletList ∨ k = FormatKey.numberList ∨ k = FormatKey.blockquote)
    (hse : s ≤ e) (hel : e ≤ t.length)
    (hanom : ¬ (s = 0 ∧ t.get? 0 = some '\n'))
    (hls1 : ls ≤ s) (hls2 : ∀ i, ls ≤ i → i < s → t.get? i ≠ some '\n')
    (hls3 : ls = 0 ∨ t.get? (ls - 1) = some '\n') :
    (formatText t s e k).newText =
      if leadsWith (formats k).marker (t.drop ls)
      then t.take ls ++ t.drop (ls + (formats k).marker.length)
      else t.take ls ++ (formats k).marker ++ t.drop ls := by
  have hdet : lineStartOf t s = ls := lineStartOf_det t s ls hls1 hls2 hls3 hanom
  have main : ∀ mk : List Char, '\n' ∉ mk →
      (lineApply mk t s e).newText =
        if leadsWith mk (t.drop ls) then t.take ls ++ t.drop (ls + mk.length)
        else t.take ls ++ mk ++ t.drop ls := by
    intro mk hm
    rw [lineApply_at mk t s e ls hm hdet hls1 hse hel]
  rcases hk with rfl | rfl | rfl | rfl | rfl | rfl
  · exact main (String.toList "# ") (by decide)
  · exact main (String.toList "## ") (by decide)
  · exact main (String.toList "### ") (by decide)
  · exact main (String.toList "- ") (by decide)
  · exact main (String.toList "1. ") (by decide)
  · exact main (String.toList "> ") (by decide)

/-- Witness for C8 at a concrete input: in `ab\ncd` the line containing
position 4 starts at 3, and the bullet marker is inserted there. -/
theorem C8_w :
    (formatText (String.toList "ab\ncd") 4 5 FormatKey.bulletList).newText
      = String.toList "ab\n- cd" := by
  have h := C8_thm (String.toList "ab\ncd") 4 5 3 FormatKey.bulletList
    (Or.inr (Or.inr (Or.inr (Or.inl rfl)))) (by decide) (by decide) (by decide) (by decide)
    (by
      intro i h1 h2
      have hi : i = 3 := by omega
      subst hi
      decide)
    (by decide)
  rw [h]
  decide

/-- Claim C5 (amended): for a selection whose line (starting at the
characterized position `ls`) does not start with `# `, and which is not the
`selectionStart = 0` / leading-newline corner case, applying h1 prepends
exactly `# ` at `ls`; applying h1 again with any selection on that
now-prefixed line (no newline between `ls` and the new selection start,
selection within the new text) removes exactly the first two characters of
the line and restores the original text byte-for-byte. -/
theorem C5_thm (t : List Char) (s e s2 e2 ls : Nat)
    (hse : s ≤ e) (hel : e ≤ t.length)
    (hanom : ¬ (s = 0 ∧ t.get? 0 = some '\n'))
    (hls1 : ls ≤ s) (hls2 : ∀ i, ls ≤ i → i < s → t.get? i ≠ some '\n')
    (hls3 : ls = 0 ∨ t.get? (ls - 1) = some '\n')
    (hnofmt : leadsWith (String.toList "# ") (t.drop ls) = false)
    (hs2 : ls ≤ s2) (hs2e : s2 ≤ e2) (he2 : e2 ≤ t.length + 2)
    (hs2nl : ∀ i, ls ≤ i → i < s2 →
      ((formatText t s e FormatKey.h1).newText).get? i ≠ some '\n') :
    (formatText t s e FormatKey.h1).newText
      = t.take ls ++ String.toList "# " ++ t.drop ls
    ∧ (formatText ((formatText t s e FormatKey.h1).newText) s2 e2 FormatKey.h1).newText
      = t := by
  have hdet : lineStartOf t s = ls := lineStartOf_det t s ls hls1 hls2 hls3 hanom
  have hlsl : ls ≤ t.length := by omega
  have htake : (t.take ls).length = ls := by
    rw [List.length_take]
    omega
  have h1 : (formatText t s e FormatKey.h1).newText
      = t.take ls ++ String.toList "# " ++ t.drop ls := by
    show (lineApply (String.toList "# ") t s e).newText = _
    rw [lineApply_at (String.toList "# ") t s e ls (by decide) hdet hls1 hse hel]
    show (if leadsWith (String.toList "# ") (t.drop ls) = true then _ else _) = _
    rw [hnofmt]
    simp
  refine ⟨h1, ?_⟩
  rw [h1] at hs2nl ⊢
  have hTlen : (t.take ls ++ String.toList "# " ++ t.drop ls).length = t.length + 2 := by
    simp only [List.length_append, htake, List.length_drop]
    have : (String.toList "# ").length = 2 := rfl
    omega
  have hTdropls : (t.take ls ++ String.toList "# " ++ t.drop ls).drop ls
      = String.toList "# " ++ t.drop ls := by
    rw [List.append_assoc]
    exact List.drop_left' htake
  have hdet2 : lineStartOf (t.take ls ++ String.toList "# " ++ t.drop ls) s2 = ls := by
    apply lineStartOf_det _ s2 ls hs2 hs2nl
    · rcases Nat.eq_zero_or_pos ls with rfl | hlspos
      · exact Or.inl rfl
      · right
        rcases hls3 with h0 | hprev
        · omega
        · have hlt : ls - 1 < (t.take ls).length := by omega
          have hlt1 : ls - 1 < (t.take ls ++ String.toList "# ").length := by
            simp only [List.length_append, htake]
            omega
          rw [List.get?_append hlt1, List.get?_append hlt, List.get?_take (by omega)]
          exact hprev
    · rintro ⟨rfl, hT0⟩
      have hls0 : ls = 0 := Nat.le_zero.1 hs2
      subst hls0
      have : (t.take 0 ++ String.toList "# " ++ t.drop 0).get? 0 = some '#' := by
        simp
      rw [this] at hT0
      simp at hT0
  have hmain := lineApply_at (String.toList "# ")
    (t.take ls ++ String.toList "# " ++ t.drop ls) s2 e2 ls (by decide) hdet2 hs2 hs2e
    (by omega)
  show (lineApply (String.toList "# ") (t.take ls ++ String.toList "# " ++ t.drop ls)
    s2 e2).newText = t
  rw [hmain]
  show (if leadsWith (String.toList "# ")
      ((t.take ls ++ String.toList "# " ++ t.drop ls).drop ls) = true then _ else _) = t
  rw [hTdropls, leadsWith_append_self]
  show (t.take ls ++ String.toList "# " ++ t.drop ls).take ls
      ++ (t.take ls ++ String.toList "# " ++ t.drop ls).drop
        (ls + (String.toList "# ").length) = t
  have htk : (t.take ls ++ String.toList "# " ++ t.drop ls).take ls = t.take ls := by
    rw [List.append_assoc]
    exact List.take_left' htake
  have hdr : (t.take ls ++ String.toList "# " ++ t.drop ls).drop
      (ls + (String.toList "# ").length) = t.drop ls := by
    apply List.drop_left'
    simp only [List.length_append, htake]
  rw [htk, hdr]
  exact List.take_append_drop ls t

/-- Witness for C5 at a concrete input: `ab\ncd`, caret on the second
line; h1 prepends `# ` to that line and a second h1 on the prefixed line
restores the original. -/
theorem C5_w :
    (formatText (String.toList "ab\ncd") 4 5 FormatKey.h1).newText
      = String.toList "ab\n# cd"
    ∧ (formatText ((formatText (String.toList "ab\ncd") 4 5 FormatKey.h1).newText)
        4 5 FormatKey.h1).newText = String.toList "ab\ncd" := by
  have h := C5_thm (String.toList "ab\ncd") 4 5 4 5 3 (by decide) (by decide) (by decide)
    (by decide)
    (by
      intro i h1 h2
      have hi : i = 3 := by omega
      subst hi
      decide)
    (by decide) (by decide) (by decide) (by decide) (by decide)
    (by
      intro i h1 h2
      have hi : i = 3 := by omega
      subst hi
      decide)
  refine ⟨?_, ?_⟩
  · rw [h.1]
    decide
  · exact h.2

end MdEditor
